import Mathlib

/-!
Verification development for expressions-js: a shallow embedding of
src/expressions.js (current revision, lines 1-101, and the older appended
revision, lines 102-198) and src/strings.js, together with theorems settling
the frozen claims about the compilation pipeline.

All expression text is modelled as List Char.  JavaScript reference identity
of compiled callables is modelled by a Nat id stored next to the callable in
the cache.  The two pipeline stages whose source is not in the repository
snapshot (formatters.js and property-chains.js) and the host Function
constructor are taken as explicit function parameters of the embedded parse.
-/

namespace ExpressionsJs

/-! ### Character helpers -/

def squote : Char := Char.ofNat 39

def dquote : Char := Char.ofNat 34

def soh : Char := Char.ofNat 1

def bslash : Char := Char.ofNat 92

/-- The three literal delimiters recognised by quoteRegex in strings.js:
single quote, double quote, forward slash. -/
def isQuote (c : Char) : Bool := decide (c = squote ∨ c = dquote ∨ c = '/')

/-! ### strings.js: pullOutStrings / putInStrings

quoteRegex is /(['"\/])(\\\1|[^\1])*?\1/g.  Inside the character class, \1 is
the octal escape for U+0001 (soh), so [^\1] matches any character except soh;
outside the class, \1 is a backreference to the opening delimiter.  The lazy
loop tries to close at each position first, then a backslash-delimiter pair,
then any single non-soh character, backtracking in that order. -/

/-- The body of a quoteRegex match after the opening delimiter c: returns the
consumed characters (content plus the closing delimiter) and the rest of the
input, or none when no match starting here succeeds. -/
def matchContent (c : Char) : List Char → Option (List Char × List Char)
  | [] => none
  | [x] => if x = c then some ([c], []) else none
  | x :: y :: xs =>
    if x = c then some ([c], y :: xs)
    else if x = soh then none
    else if x = bslash ∧ y = c then
      match matchContent c xs with
      | some (m, rest) => some (x :: y :: m, rest)
      | none =>
        match matchContent c (y :: xs) with
        | some (m, rest) => some (x :: m, rest)
        | none => none
    else
      match matchContent c (y :: xs) with
      | some (m, rest) => some (x :: m, rest)
      | none => none

/-- Fuel-indexed scanner for expr.replace(quoteRegex, ...): each matched
literal is pushed on the table and replaced by an empty literal of the same
delimiter; on a failed attempt the scan advances by one character.  The fuel
only bounds the recursion; pullOut supplies enough fuel for it never to run
out. -/
def pullOutF : Nat → List Char → List Char × List (List Char)
  | _, [] => ([], [])
  | 0, l => (l, [])
  | fuel + 1, x :: xs =>
    if isQuote x then
      match matchContent x xs with
      | some (m, rest) =>
        let r := pullOutF fuel rest
        (x :: x :: r.1, (x :: m) :: r.2)
      | none =>
        let r := pullOutF fuel xs
        (x :: r.1, r.2)
    else
      let r := pullOutF fuel xs
      (x :: r.1, r.2)

/-- The pure part of pullOutStrings: stripped text plus the literal table. -/
def pullOut (l : List Char) : List Char × List (List Char) :=
  pullOutF l.length l

/-- String.shift() on an exhausted queue yields undefined, which the replace
callback stringifies. -/
def undefinedLit : List Char := "undefined".toList

/-- The pure part of putInStrings: emptyQuoteExpr is /(['"\/])\1/g, so every
pair of adjacent identical delimiters is replaced by the next queued literal
(scanning left to right, replacements not rescanned). -/
def putIn : List Char → List (List Char) → List Char × List (List Char)
  | [], q => ([], q)
  | [x], q => ([x], q)
  | x :: y :: xs, q =>
    if isQuote x ∧ y = x then
      match q with
      | s :: q2 =>
        let r := putIn xs q2
        (s ++ r.1, r.2)
      | [] =>
        let r := putIn xs []
        (undefinedLit ++ r.1, r.2)
    else
      let r := putIn (y :: xs) q
      (x :: r.1, r.2)

def pullTwiceMsg : String := "putInStrings must be called after pullOutStrings."

def putTwiceMsg : String := "pullOutStrings must be called before putInStrings."

/-- exports.pullOutStrings with the module-level table made explicit: the
state is some table while a pull is pending (an empty array is truthy in the
source's check), none otherwise. -/
def pullOutStrings (st : Option (List (List Char))) (e : List Char) :
    Except String (List Char × Option (List (List Char))) :=
  match st with
  | some _ => .error pullTwiceMsg
  | none =>
    let r := pullOut e
    .ok (r.1, some r.2)

/-- exports.putInStrings with the module-level table made explicit. -/
def putInStrings (st : Option (List (List Char))) (e : List Char) :
    Except String (List Char × Option (List (List Char))) :=
  match st with
  | none => .error putTwiceMsg
  | some q => .ok ((putIn e q).1, none)

/-! ### Runtime values and callables -/

/-- A small model of the JavaScript values a compiled expression touches:
undefined, null, strings, and objects as ordered field lists. -/
inductive Val where
  | undefined : Val
  | null : Val
  | vstr : List Char → Val
  | obj : List (List Char × Val) → Val

/-- A compiled JavaScript function: binding context (this) and positional
arguments to result. -/
def Callable : Type := Val → List Val → Val

def lookupField : List (List Char × Val) → List Char → Option Val
  | [], _ => none
  | (k, v) :: rest, key => if k = key then some v else lookupField rest key

/-- JavaScript member access v.name as observable on our values: a present
field of an object, undefined otherwise. -/
def getField (v : Val) (name : List Char) : Val :=
  match v with
  | .obj fields => (lookupField fields name).getD .undefined
  | _ => .undefined

/-- The == null test of the generated guards: true for null and undefined. -/
def isNil : Val → Bool
  | .undefined => true
  | .null => true
  | _ => false

/-- Unguarded walk down a property chain (the mathematical terminal value). -/
def rawWalk (v : Val) : List (List Char) → Val
  | [] => v
  | name :: rest => rawWalk (getField v name) rest

/-- Modelled from the spec: property-chains.js is not in the source snapshot,
so the evaluation of the code it generates for a chained access is modelled
from sections 4.3 and 8 of the spec and from the generated bodies shown in
the repository's tests and README, e.g. for a.b:
var ref1; return (ref1 = this.a) == null ? void 0 : ref1.b.
Each intermediate value is tested against null/undefined before it is
dereferenced further; the terminal dereference is returned untested. -/
def chainAux (v : Val) : List (List Char) → Val
  | [] => v
  | name :: rest => if isNil v then .undefined else chainAux (getField v name) rest

/-- Modelled from the spec: evaluation of a compiled chained access
this.l1.l2...ln against binding context ctx.  The first link is read off the
context directly; every intermediate result is null-guarded before further
dereferencing. -/
def evalChain (ctx : Val) : List (List Char) → Val
  | [] => ctx
  | name :: rest => chainAux (getField ctx name) rest

/-- A concrete context with the chain a.b present, for witnesses. -/
def ctxPresent : Val :=
  .obj [("a".toList, .obj [("b".toList, .vstr "x".toList)])]

/-! ### expressions.js, current revision (file lines 1-101)

The two missing pipeline stages and the host Function constructor are
parameters: pf models formatters.parseFormatters, pc models
propertyChains.parseExpression (text and variable table to text), jc models
the Function constructor (parameter names and body to a callable, none when
the body is not valid JavaScript). -/

/-- Module-level mutable state of expressions.js together with the strings.js
table it drives: the pending literal table, the memoization cache (key, id,
callable - the Nat id models JavaScript reference identity), the id supply,
the var valueProperty cell, and the exports.globals registry. -/
structure ModState where
  strs : Option (List (List Char))
  cache : List (List Char × Nat × Callable)
  nextId : Nat
  valueProperty : List Char
  globalsReg : List (List Char × Val)

def initialState : ModState :=
  { strs := none, cache := [], nextId := 0
    valueProperty := "_value_".toList, globalsReg := [] }

/-- The expr argument of parse: a string or any other JavaScript value. -/
inductive JSArg where
  | str : List Char → JSArg
  | nonString : Val → JSArg

inductive ParseErr where
  | typeError : ParseErr
  | stringsError : ParseErr
  | compileError : ParseErr
  deriving DecidableEq

/-- extraArgs.join(',') on character lists. -/
def joinComma : List (List Char) → List Char
  | [] => []
  | [a] => a
  | a :: rest => a ++ ',' :: joinComma rest

/-- var cacheKey = expr + '|' + extraArgs.join(','). -/
def cacheKey (expr : List Char) (extraArgs : List (List Char)) : List Char :=
  expr ++ '|' :: joinComma extraArgs

def lookupCache : List (List Char × Nat × Callable) → List Char →
    Option (Nat × Callable)
  | [], _ => none
  | (k, entry) :: rest, key => if k = key then some entry else lookupCache rest key

/-- JavaScript object assignment obj[k] = v on an ordered field list. -/
def setVar (tbl : List (List Char × Val)) (k : List Char) (v : Val) :
    List (List Char × Val) :=
  match tbl with
  | [] => [(k, v)]
  | (k0, v0) :: rest => if k0 = k then (k, v) :: rest else (k0, v0) :: setVar rest k v

/-- getVariables(globals, extraArgs): exports.globals entries, overridden by
the per-call globals object when it is one, then each extra argument name
set to null. -/
def getVariables (reg : List (List Char × Val)) (globals : Val)
    (extraArgs : List (List Char)) : List (List Char × Val) :=
  let base := reg.foldl (fun acc kv => setVar acc kv.1 kv.2) []
  let withGlobals :=
    match globals with
    | .obj fields => fields.foldl (fun acc kv => setVar acc kv.1 kv.2) base
    | _ => base
  extraArgs.foldl (fun acc k => setVar acc k .null) withGlobals

/-- 'return ' is prefixed onto the last newline-separated line of the
transformed text (getter mode only). -/
def addReturn (e : List Char) : List Char :=
  let lines := e.splitOn '\n'
  List.intercalate ['\n'] (lines.dropLast ++ ["return ".toList ++ (lines.getLast?.getD [])])

/-- bindArguments: partial application that leaves the binding context free -
the binder forwards its own this and prepends the captured arguments. -/
def bindArguments (func : Callable) (args : List Val) : Callable :=
  fun this extra => func this (args ++ extra)

def globalsParamName : List Char := "_globals_".toList

def formattersParamName : List Char := "_formatters_".toList

/-- compileExpression: builds the function from
['_globals_', '_formatters_', ...extraArgs, body] and partially applies the
captured globals and formatters; none models the constructor throwing on an
invalid body. -/
def compileExpression (jc : List (List Char) → List Char → Option Callable)
    (body : List Char) (globals formatters : Val)
    (extraArgs : List (List Char)) : Option Callable :=
  match jc (globalsParamName :: formattersParamName :: extraArgs) body with
  | none => none
  | some f => some (bindArguments f [globals, formatters])

/-- The text pipeline of parse between the cache miss and compilation:
pullOutStrings, parseFormatters, propertyChains.parseExpression with the
merged variable table, the return-prefixing in getter mode, putInStrings. -/
def pipelineText (pf : List Char → List Char)
    (pc : List Char → List (List Char × Val) → List Char)
    (reg : List (List Char × Val)) (globals : Val) (e : List Char)
    (extraArgs : List (List Char)) (isSetter : Bool) : List Char :=
  let r := pullOut e
  let e1 := pf r.1
  let e2 := pc e1 (getVariables reg globals extraArgs)
  let e3 := if isSetter then e2 else addReturn e2
  (putIn e3 r.2).1

/-- exports.parse (current revision): type check, cache lookup, the text
pipeline (inlining the strings.js calls together with their pending-table
check), compilation, caching.  Returns the result and the final module
state; on a throw the state at the throw point is returned. -/
def parse (pf : List Char → List Char)
    (pc : List Char → List (List Char × Val) → List Char)
    (jc : List (List Char) → List Char → Option Callable)
    (st : ModState) (expr : JSArg) (globals formatters : Val)
    (extraArgs : List (List Char)) :
    Except ParseErr (Nat × Callable) × ModState :=
  match expr with
  | .nonString _ => (.error .typeError, st)
  | .str e =>
    let key := cacheKey e extraArgs
    match lookupCache st.cache key with
    | some entry => (.ok entry, st)
    | none =>
      match st.strs with
      | some _ => (.error .stringsError, st)
      | none =>
        let isSetter : Bool := decide (extraArgs.head? = some st.valueProperty)
        let body := pipelineText pf pc st.globalsReg globals e extraArgs isSetter
        let st2 : ModState := { st with strs := none }
        match compileExpression jc body globals formatters extraArgs with
        | none => (.error .compileError, st2)
        | some f =>
          (.ok (st2.nextId, f),
           { st2 with
               cache := (key, st2.nextId, f) :: st2.cache
               nextId := st2.nextId + 1 })

/-- JavaScript whitespace as matched by \s (ASCII part). -/
def jsSpace (c : Char) : Bool :=
  decide (c = ' ' ∨ c = Char.ofNat 9 ∨ c = Char.ofNat 10 ∨ c = Char.ofNat 11 ∨
    c = Char.ofNat 12 ∨ c = Char.ofNat 13)

/-- Whether the regex \s*\| matches at the start of the text: optional
whitespace directly followed by a pipe. -/
def matchesPipeAt : List Char → Bool
  | [] => false
  | c :: rest => if c = '|' then true else if jsSpace c then matchesPipeAt rest else false

/-- expr.replace(/(\s*\||$)/, ins ++ matched): the single replacement of the
leftmost match of optional whitespace plus pipe, or of the end of the text,
inserts ins there and keeps the matched text (reinserted through the group
reference). -/
def setterInsert (ins : List Char) : List Char → List Char
  | [] => ins
  | c :: rest =>
    if matchesPipeAt (c :: rest) then ins ++ c :: rest
    else c :: setterInsert ins rest

/-- exports.parseSetter (current revision): the pure text rewrite to an
assignment (with the '!' shorthand handled by slicing the bang off and
negating the placeholder) and delegation to parse with the placeholder name
prepended to the extra arguments. -/
def parseSetter (pf : List Char → List Char)
    (pc : List Char → List (List Char × Val) → List Char)
    (jc : List (List Char) → List Char → Option Callable)
    (st : ModState) (expr : List Char) (globals formatters : Val)
    (extraArgs : List (List Char)) :
    Except ParseErr (Nat × Callable) × ModState :=
  let rewritten :=
    if expr.head? = some '!' then setterInsert " = !_value_".toList expr.tail
    else setterInsert " = _value_".toList expr
  parse pf pc jc st (.str rewritten) globals formatters
    (st.valueProperty :: extraArgs)

/-! ### expressions.js, older appended revision (file lines 102-198)

Differences from the current revision: no type check on expr, extraArgs is a
single (possibly absent) array argument, and the '!' setter shorthand is
handled inside parse by reassigning the module-level valueProperty cell. -/

/-- The older exports.parse: if (!Array.isArray(extraArgs)) extraArgs = [];
then, for a '!'-prefixed setter, expr = expr.slice(1) and
valueProperty = '!' + valueProperty before the shared pipeline. -/
def parseV0 (pf : List Char → List Char)
    (pc : List Char → List (List Char × Val) → List Char)
    (jc : List (List Char) → List Char → Option Callable)
    (st : ModState) (e : List Char) (globals formatters : Val)
    (extraArgs0 : Option (List (List Char))) :
    Except ParseErr (Nat × Callable) × ModState :=
  let extraArgs := extraArgs0.getD []
  let key := cacheKey e extraArgs
  match lookupCache st.cache key with
  | some entry => (.ok entry, st)
  | none =>
    let isSetter : Bool := decide (extraArgs.head? = some st.valueProperty)
    let bang : Bool := isSetter && decide (e.head? = some '!')
    let e1 := if bang then e.tail else e
    let st1 : ModState :=
      if bang then { st with valueProperty := '!' :: st.valueProperty } else st
    match st1.strs with
    | some _ => (.error .stringsError, st1)
    | none =>
      let body := pipelineText pf pc st1.globalsReg globals e1 extraArgs isSetter
      let st2 : ModState := { st1 with strs := none }
      match compileExpression jc body globals formatters extraArgs with
      | none => (.error .compileError, st2)
      | some f =>
        (.ok (st2.nextId, f),
         { st2 with
             cache := (key, st2.nextId, f) :: st2.cache
             nextId := st2.nextId + 1 })

/-- The older exports.parseSetter: extraArgs.unshift(valueProperty) and the
rewrite against the literal placeholder text, then delegation. -/
def parseSetterV0 (pf : List Char → List Char)
    (pc : List Char → List (List Char × Val) → List Char)
    (jc : List (List Char) → List Char → Option Callable)
    (st : ModState) (e : List Char) (globals formatters : Val)
    (extraArgs0 : Option (List (List Char))) :
    Except ParseErr (Nat × Callable) × ModState :=
  let extraArgs := extraArgs0.getD []
  let e2 := setterInsert " = _value_".toList e
  parseV0 pf pc jc st e2 globals formatters (some (st.valueProperty :: extraArgs))


/-! ### Lemmas about the literal isolator -/

theorem matchContent_eq (c : Char) (l : List Char) :
    ∀ m rest, matchContent c l = some (m, rest) → m ++ rest = l ∧ m ≠ [] := by
  induction l using matchContent.induct c with
  | case1 => intro m rest h; simp [matchContent] at h
  | case2 =>
    intro m rest h
    simp [matchContent] at h
    obtain ⟨h1, h2⟩ := h
    subst h1; subst h2
    simp
  | case3 x hx =>
    intro m rest h
    simp [matchContent, hx] at h
  | case4 y xs =>
    intro m rest h
    simp [matchContent] at h
    obtain ⟨h1, h2⟩ := h
    subst h1; subst h2
    simp
  | case5 y xs hc =>
    intro m rest h
    have hne : ¬ soh = c := hc
    simp [matchContent, hne] at h
  | case6 x y xs h1 h2 h3 m0 rest0 hm ih =>
    intro m rest h
    simp only [matchContent, if_neg h1, if_neg h2, if_pos h3, hm] at h
    obtain ⟨rfl, rfl⟩ := Prod.mk.inj (Option.some.inj h)
    obtain ⟨e1, _⟩ := ih m0 rest0 hm
    constructor
    · simp [e1]
    · simp
  | case7 x y xs h1 h2 h3 hn m1 rest1 hm ih1 ih2 =>
    intro m rest h
    simp only [matchContent, if_neg h1, if_neg h2, if_pos h3, hn, hm] at h
    obtain ⟨rfl, rfl⟩ := Prod.mk.inj (Option.some.inj h)
    obtain ⟨e1, _⟩ := ih2 m1 rest1 hm
    constructor
    · simp [e1]
    · simp
  | case8 x y xs h1 h2 h3 hn1 hn2 ih1 ih2 =>
    intro m rest h
    simp only [matchContent, if_neg h1, if_neg h2, if_pos h3, hn1, hn2] at h
    exact Option.noConfusion h
  | case9 x y xs h1 h2 h3 m1 rest1 hm ih =>
    intro m rest h
    simp only [matchContent, if_neg h1, if_neg h2, if_neg h3, hm] at h
    obtain ⟨rfl, rfl⟩ := Prod.mk.inj (Option.some.inj h)
    obtain ⟨e1, _⟩ := ih m1 rest1 hm
    constructor
    · simp [e1]
    · simp
  | case10 x y xs h1 h2 h3 hn ih =>
    intro m rest h
    simp only [matchContent, if_neg h1, if_neg h2, if_neg h3, hn] at h
    exact Option.noConfusion h

theorem matchContent_cons_self (c : Char) (zs : List Char) :
    matchContent c (c :: zs) = some ([c], zs) := by
  cases zs with
  | nil => simp [matchContent]
  | cons y ys => simp [matchContent]

theorem matchContent_none_ne {c z : Char} {zs : List Char}
    (h : matchContent c (z :: zs) = none) : z ≠ c := by
  intro hz
  subst hz
  rw [matchContent_cons_self] at h
  exact Option.noConfusion h

theorem pullOutF_head (f : Nat) (z : Char) (zs : List Char) :
    ∃ t, (pullOutF (f + 1) (z :: zs)).1 = z :: t := by
  by_cases hq : isQuote z
  · cases hm : matchContent z zs with
    | some p =>
      exact ⟨z :: (pullOutF f p.2).1, by simp [pullOutF, hq, hm]⟩
    | none =>
      exact ⟨(pullOutF f zs).1, by simp [pullOutF, hq, hm]⟩
  · exact ⟨(pullOutF f zs).1, by simp [pullOutF, hq]⟩

theorem roundtripF : ∀ (fuel : Nat) (l : List Char), l.length ≤ fuel →
    putIn (pullOutF fuel l).1 (pullOutF fuel l).2 = (l, []) := by
  intro fuel
  induction fuel with
  | zero =>
    intro l hl
    have : l = [] := List.eq_nil_of_length_eq_zero (Nat.le_zero.mp hl)
    subst this
    simp [pullOutF, putIn]
  | succ f ih =>
    intro l hl
    cases l with
    | nil => simp [pullOutF, putIn]
    | cons x xs =>
      have hxs : xs.length ≤ f := by simp at hl; omega
      by_cases hq : isQuote x
      · cases hm : matchContent x xs with
        | some p =>
          obtain ⟨m, rest⟩ := p
          obtain ⟨hmr, hmn⟩ := matchContent_eq x xs m rest hm
          have hrest : rest.length ≤ f := by
            have : m.length + rest.length = xs.length := by
              rw [← hmr]; simp
            have hml : 1 ≤ m.length := by
              cases m with
              | nil => exact absurd rfl hmn
              | cons a b => simp
            omega
          simp only [pullOutF, hq, hm, if_pos]
          have hput : putIn (x :: x :: (pullOutF f rest).1) ((x :: m) :: (pullOutF f rest).2)
              = ((x :: m) ++ (putIn (pullOutF f rest).1 (pullOutF f rest).2).1,
                 (putIn (pullOutF f rest).1 (pullOutF f rest).2).2) := by
            simp [putIn, hq]
          rw [hput, ih rest hrest]
          simp [← hmr]
        | none =>
          simp only [pullOutF, hq, hm, if_pos]
          cases hr1 : (pullOutF f xs).1 with
          | nil =>
            cases xs with
            | nil =>
              simp [pullOutF] at hr1 ⊢
              simp [putIn]
            | cons z zs =>
              obtain ⟨f2, rfl⟩ : ∃ f2, f = f2 + 1 := by
                cases f with
                | zero => simp at hxs
                | succ f2 => exact ⟨f2, rfl⟩
              obtain ⟨t, ht⟩ := pullOutF_head f2 z zs
              rw [hr1] at ht
              exact absurd ht (by simp)
          | cons y ys =>
            have hput2 := ih xs hxs
            rw [hr1] at hput2
            have hyne : ¬ (isQuote x ∧ y = x) := by
              rintro ⟨-, rfl⟩
              cases xs with
              | nil => simp [pullOutF] at hr1
              | cons z zs =>
                obtain ⟨f2, rfl⟩ : ∃ f2, f = f2 + 1 := by
                  cases f with
                  | zero => simp at hxs
                  | succ f2 => exact ⟨f2, rfl⟩
                obtain ⟨t, ht⟩ := pullOutF_head f2 z zs
                rw [hr1] at ht
                have : y = z := by
                  have := List.cons.inj ht
                  exact this.1
                exact (matchContent_none_ne hm) (this ▸ rfl)
            simp only [putIn, if_neg hyne]
            rw [hput2]
      · simp only [pullOutF, if_neg hq]
        cases hr1 : (pullOutF f xs).1 with
        | nil =>
          cases xs with
          | nil =>
            simp [pullOutF] at hr1 ⊢
            simp [putIn]
          | cons z zs =>
            obtain ⟨f2, rfl⟩ : ∃ f2, f = f2 + 1 := by
              cases f with
              | zero => simp at hxs
              | succ f2 => exact ⟨f2, rfl⟩
            obtain ⟨t, ht⟩ := pullOutF_head f2 z zs
            rw [hr1] at ht
            exact absurd ht (by simp)
        | cons y ys =>
          have hput2 := ih xs hxs
          rw [hr1] at hput2
          have hyne : ¬ (isQuote x ∧ y = x) := by
            rintro ⟨hq2, -⟩
            exact hq (by simpa using hq2)
          simp only [putIn, if_neg hyne]
          rw [hput2]

theorem putIn_pullOut (l : List Char) :
    putIn (pullOut l).1 (pullOut l).2 = (l, []) :=
  roundtripF l.length l (Nat.le_refl _)

/-- Claim C2: for every input expression text e, isolating the literals and
then restoring them returns e unchanged, and the module ends with no pending
table. -/
theorem putInStrings_pullOutStrings_roundtrip (e : List Char) :
    (pullOutStrings none e).bind (fun r => putInStrings r.2 r.1) =
      Except.ok (e, (none : Option (List (List Char)))) := by
  have h := putIn_pullOut e
  simp [pullOutStrings, putInStrings, Except.bind, h]

/-- Claim C6: isolating while a literal table is pending errors, restoring
with no pending table errors, and a properly alternating isolate/restore
pair ends with no pending table so that a fresh isolate succeeds. -/
theorem strings_misuse_protocol (q : List (List Char)) (e e2 : List Char) :
    pullOutStrings (some q) e = Except.error pullTwiceMsg ∧
    putInStrings none e = Except.error putTwiceMsg ∧
    (pullOutStrings none e).bind (fun r => putInStrings r.2 r.1) =
      Except.ok (e, (none : Option (List (List Char)))) ∧
    pullOutStrings none e2 = Except.ok ((pullOut e2).1, some (pullOut e2).2) := by
  refine ⟨rfl, rfl, ?_, rfl⟩
  have h := putIn_pullOut e
  simp [pullOutStrings, putInStrings, Except.bind, h]

/-! ### Null-tolerant chain evaluation (claim C1) -/

theorem chainAux_undef : ∀ (ls : List (List Char)) (v : Val), ls ≠ [] →
    isNil (rawWalk v ls.dropLast) = true → chainAux v ls = .undefined := by
  intro ls
  induction ls with
  | nil => intro v h; exact absurd rfl h
  | cons l ls2 ih =>
    intro v _ hnil
    cases ls2 with
    | nil =>
      simp [rawWalk, List.dropLast] at hnil
      simp [chainAux, hnil]
    | cons b bs =>
      have hdl : (l :: b :: bs).dropLast = l :: (b :: bs).dropLast := by simp
      rw [hdl] at hnil
      have hnil2 : isNil (rawWalk (getField v l) (b :: bs).dropLast) = true := hnil
      by_cases hv : isNil v
      · simp [chainAux, hv]
      · have hv2 : isNil v = false := by simpa using hv
        simp only [chainAux, hv2, Bool.false_eq_true, if_false]
        exact ih (getField v l) (by simp) hnil2

theorem chainAux_raw : ∀ (ls : List (List Char)) (v : Val),
    (∀ k, k < ls.length → isNil (rawWalk v (ls.take k)) = false) →
    chainAux v ls = rawWalk v ls := by
  intro ls
  induction ls with
  | nil => intro v _; rfl
  | cons l ls2 ih =>
    intro v h
    have h0 : isNil v = false := by simpa [rawWalk] using h 0 (by simp)
    simp only [chainAux, h0, Bool.false_eq_true, if_false]
    show chainAux (getField v l) ls2 = rawWalk (getField v l) ls2
    refine ih (getField v l) (fun k hk => ?_)
    have := h (k + 1) (by simpa using hk)
    simpa [List.take_succ_cons, rawWalk] using this

/-- Claim C1 (spec-modelled): for a chained access of two or more links, if
some intermediate link value is null or undefined on the bound context, the
compiled chain evaluates to undefined instead of throwing; if every
intermediate link is present, it evaluates to the unguarded terminal value. -/
theorem evalChain_null_tolerant (ctx : Val) (links : List (List Char))
    (h2 : 2 ≤ links.length) :
    (isNil (rawWalk ctx links.dropLast) = true → evalChain ctx links = .undefined) ∧
    ((∀ k, k + 1 < links.length → isNil (rawWalk ctx (links.take (k + 1))) = false) →
      evalChain ctx links = rawWalk ctx links) := by
  cases links with
  | nil => simp at h2
  | cons l rest =>
    have hne : rest ≠ [] := by
      cases rest with
      | nil => simp at h2
      | cons a b => simp
    constructor
    · intro hnil
      have hdl : (l :: rest).dropLast = l :: rest.dropLast := by
        cases rest with
        | nil => exact absurd rfl hne
        | cons a b => simp
      rw [hdl] at hnil
      exact chainAux_undef rest (getField ctx l) hne hnil
    · intro hall
      show chainAux (getField ctx l) rest = rawWalk ctx (l :: rest)
      have : rawWalk ctx (l :: rest) = rawWalk (getField ctx l) rest := rfl
      rw [this]
      refine chainAux_raw rest (getField ctx l) (fun k hk => ?_)
      have := hall k (by simpa using hk)
      simpa [List.take_succ_cons, rawWalk] using this

/-- Witness for C1 at concrete inputs: the chain a.b yields the terminal
value on a full context and undefined on an empty one. -/
theorem evalChain_null_tolerant_witness :
    evalChain ctxPresent ["a".toList, "b".toList] = .vstr "x".toList ∧
    evalChain (Val.obj []) ["a".toList, "b".toList] = .undefined := by
  constructor
  · rw [(evalChain_null_tolerant ctxPresent ["a".toList, "b".toList] (by decide)).2
      (by
        intro k hk
        cases k with
        | zero => decide
        | succ n => exact absurd hk (by simp))]
    rfl
  · exact (evalChain_null_tolerant (Val.obj []) ["a".toList, "b".toList] (by decide)).1
      (by decide)

/-! ### Bare slashes are captured as pattern literals (claim C10) -/

theorem pullOutF_congr : ∀ (f1 : Nat) (l : List Char) (f2 : Nat),
    l.length ≤ f1 → l.length ≤ f2 → pullOutF f1 l = pullOutF f2 l := by
  intro f1
  induction f1 with
  | zero =>
    intro l f2 h1 _
    have hl : l = [] := List.eq_nil_of_length_eq_zero (Nat.le_zero.mp h1)
    subst hl
    cases f2 <;> simp [pullOutF]
  | succ f ih =>
    intro l f2 h1 h2
    cases l with
    | nil => cases f2 <;> simp [pullOutF]
    | cons x xs =>
      obtain ⟨g, rfl⟩ : ∃ g, f2 = g + 1 := by
        cases f2 with
        | zero => simp at h2
        | succ g => exact ⟨g, rfl⟩
      have hxf : xs.length ≤ f := by simp at h1; omega
      have hxg : xs.length ≤ g := by simp at h2; omega
      by_cases hq : isQuote x
      · cases hm : matchContent x xs with
        | some p =>
          obtain ⟨m, rest⟩ := p
          obtain ⟨hmr, hmn⟩ := matchContent_eq x xs m rest hm
          have hml : 1 ≤ m.length := by
            cases m with
            | nil => exact absurd rfl hmn
            | cons a b => simp
          have hlen : m.length + rest.length = xs.length := by rw [← hmr]; simp
          have hrf : rest.length ≤ f := by omega
          have hrg : rest.length ≤ g := by omega
          simp [pullOutF, hq, hm, ih rest g hrf hrg]
        | none =>
          simp [pullOutF, hq, hm, ih xs g hxf hxg]
      · have hq2 : isQuote x = false := by simpa using hq
        simp [pullOutF, hq2, ih xs g hxf hxg]

theorem pullOut_quote_free_append (pre rest : List Char)
    (h : ∀ c ∈ pre, isQuote c = false) :
    pullOut (pre ++ rest) = (pre ++ (pullOut rest).1, (pullOut rest).2) := by
  induction pre with
  | nil => simp
  | cons c pre2 ih =>
    have hc : isQuote c = false := h c (by simp)
    have ih2 := ih (fun d hd => h d (by simp [hd]))
    show pullOutF ((c :: (pre2 ++ rest)).length) (c :: (pre2 ++ rest)) = _
    have hstep : pullOutF ((pre2 ++ rest).length + 1) (c :: (pre2 ++ rest)) =
        (c :: (pullOutF (pre2 ++ rest).length (pre2 ++ rest)).1,
         (pullOutF (pre2 ++ rest).length (pre2 ++ rest)).2) := by
      simp [pullOutF, hc]
    simp only [List.length_cons]
    rw [hstep]
    have : pullOutF (pre2 ++ rest).length (pre2 ++ rest) = pullOut (pre2 ++ rest) := rfl
    rw [this, ih2]
    simp

theorem matchContent_slash_clean (mid post : List Char)
    (h : ∀ c ∈ mid, isQuote c = false ∧ c ≠ bslash ∧ c ≠ soh) :
    matchContent '/' (mid ++ '/' :: post) = some (mid ++ ['/'], post) := by
  induction mid with
  | nil =>
    cases post with
    | nil => simp [matchContent]
    | cons y ys => simp [matchContent]
  | cons c mid2 ih =>
    obtain ⟨hq, hb, hs⟩ := h c (by simp)
    have ih2 := ih (fun d hd => h d (by simp [hd]))
    have hcne : ¬ c = '/' := by
      intro hc
      rw [hc] at hq
      simp [isQuote] at hq
    cases hmp : mid2 ++ '/' :: post with
    | nil => exact absurd hmp (by simp)
    | cons y ys =>
      rw [hmp] at ih2
      have hgoal : matchContent '/' (c :: y :: ys) = some (c :: (mid2 ++ ['/']), post) := by
        have hb2 : ¬ (c = bslash ∧ y = '/') := by
          rintro ⟨h1, -⟩
          exact hb h1
        simp only [matchContent, if_neg hcne, if_neg hs, if_neg hb2, ih2]
      calc matchContent '/' (c :: (mid2 ++ '/' :: post))
          = matchContent '/' (c :: y :: ys) := by rw [hmp]
        _ = some (c :: (mid2 ++ ['/']), post) := hgoal
        _ = some ((c :: mid2) ++ ['/'], post) := by simp

/-- Claim C10: pullOutStrings treats a bare forward slash as a pattern
delimiter: with no quote characters before the first slash and no quote,
backslash, or U+0001 characters between the two slashes, the whole span from
the first slash to the second, inclusive, is captured as one literal and
replaced by the placeholder //. -/
theorem slash_pair_captured (pre mid post : List Char)
    (hpre : ∀ c ∈ pre, isQuote c = false)
    (hmid : ∀ c ∈ mid, isQuote c = false ∧ c ≠ bslash ∧ c ≠ soh) :
    pullOut (pre ++ '/' :: (mid ++ '/' :: post)) =
      (pre ++ '/' :: '/' :: (pullOut post).1,
       ('/' :: (mid ++ ['/'])) :: (pullOut post).2) := by
  rw [pullOut_quote_free_append pre ('/' :: (mid ++ '/' :: post)) hpre]
  have hm := matchContent_slash_clean mid post hmid
  have hq : isQuote '/' = true := by decide
  have hstep : pullOut ('/' :: (mid ++ '/' :: post)) =
      ('/' :: '/' :: (pullOutF (mid ++ '/' :: post).length post).1,
       ('/' :: (mid ++ ['/'])) :: (pullOutF (mid ++ '/' :: post).length post).2) := by
    show pullOutF ((mid ++ '/' :: post).length + 1) ('/' :: (mid ++ '/' :: post)) = _
    simp [pullOutF, hq, hm]
  have hcongr : pullOutF (mid ++ '/' :: post).length post = pullOut post := by
    apply pullOutF_congr
    · simp
      omega
    · exact Nat.le_refl _
  rw [hstep, hcongr]

/-- Witness for C10: the division expression a / b + c / d has the span
between its slashes captured as a single literal and replaced by //. -/
theorem slash_pair_captured_witness :
    pullOut ("a / b + c / d".toList) =
      ("a ".toList ++ '/' :: '/' :: (pullOut " d".toList).1,
       ('/' :: (" b + c ".toList ++ ['/'])) :: (pullOut " d".toList).2) :=
  slash_pair_captured ("a ".toList) (" b + c ".toList) (" d".toList)
    (by decide) (by decide)

/-! ### The setter rewrite (claim C4) -/

theorem matchesPipeAt_eq_true : ∀ (l : List Char), matchesPipeAt l = true ↔
    ∃ w t, l = w ++ '|' :: t ∧ ∀ c ∈ w, jsSpace c = true := by
  intro l
  induction l with
  | nil =>
    simp only [matchesPipeAt]
    constructor
    · intro h
      exact absurd h (by simp)
    · rintro ⟨w, t, hw, -⟩
      exact absurd hw.symm (by simp)
  | cons c rest ih =>
    simp only [matchesPipeAt]
    by_cases hc : c = '|'
    · subst hc
      rw [if_pos rfl]
      constructor
      · intro _
        exact ⟨[], rest, by simp, by simp⟩
      · intro _
        rfl
    · rw [if_neg hc]
      by_cases hs : jsSpace c
      · rw [if_pos hs, ih]
        constructor
        · rintro ⟨w, t, rfl, hw⟩
          refine ⟨c :: w, t, by simp, ?_⟩
          intro d hd
          rcases List.mem_cons.mp hd with h1 | h2
          · rw [h1]; exact hs
          · exact hw d h2
        · rintro ⟨w, t, hw, hws⟩
          cases w with
          | nil =>
            injection hw with h1 h2
            exact absurd h1 hc
          | cons a w2 =>
            injection hw with h1 h2
            subst h1
            exact ⟨w2, t, h2, fun d hd => hws d (by simp [hd])⟩
      · have hs2 : jsSpace c = false := by simpa using hs
        rw [hs2, if_neg (by simp)]
        constructor
        · intro h
          exact absurd h (by simp)
        · rintro ⟨w, t, hw, hws⟩
          cases w with
          | nil =>
            injection hw with h1 h2
            exact absurd h1 hc
          | cons a w2 =>
            injection hw with h1 h2
            subst h1
            exact absurd (hws c (by simp)) (by simp [hs2])

theorem setterInsert_no_pipe (ins : List Char) : ∀ (e : List Char), '|' ∉ e →
    setterInsert ins e = e ++ ins := by
  intro e
  induction e with
  | nil => intro _; rfl
  | cons c rest ih =>
    intro h
    have hmp : matchesPipeAt (c :: rest) = false := by
      cases hb : matchesPipeAt (c :: rest) with
      | false => rfl
      | true =>
        obtain ⟨w, t, hw, -⟩ := (matchesPipeAt_eq_true (c :: rest)).mp hb
        have : '|' ∈ c :: rest := by rw [hw]; simp
        exact absurd this h
    simp only [setterInsert]
    rw [if_neg (by simp [hmp])]
    rw [ih (fun hm => h (by simp [hm]))]
    rfl

theorem append_pipe_inj (s : Char) : ∀ (p q u v : List Char), s ∉ p → s ∉ q →
    p ++ s :: u = q ++ s :: v → p = q ∧ u = v := by
  intro p
  induction p with
  | nil =>
    intro q u v _ hq h
    cases q with
    | nil => simpa using h
    | cons b q2 =>
      injection h with h1 h2
      exact absurd (by simp [← h1]) hq
  | cons a p2 ih =>
    intro q u v hp hq h
    cases q with
    | nil =>
      injection h with h1 h2
      exact absurd (by simp [h1]) hp
    | cons b q2 =>
      injection h with h1 h2
      subst h1
      obtain ⟨e1, e2⟩ := ih q2 u v (fun hm => hp (by simp [hm])) (fun hm => hq (by simp [hm])) h2
      exact ⟨by rw [e1], e2⟩

theorem setterInsert_at_pipe (ins : List Char) : ∀ (a w b : List Char),
    '|' ∉ a → (∀ c ∈ w, jsSpace c = true) →
    (∀ c, a.getLast? = some c → jsSpace c = false) →
    setterInsert ins (a ++ (w ++ '|' :: b)) = a ++ (ins ++ (w ++ '|' :: b)) := by
  intro a
  induction a with
  | nil =>
    intro w b _ hw _
    have hmp : matchesPipeAt (w ++ '|' :: b) = true :=
      (matchesPipeAt_eq_true (w ++ '|' :: b)).mpr ⟨w, b, rfl, hw⟩
    cases hlist : w ++ '|' :: b with
    | nil => exact absurd hlist (by simp)
    | cons y ys =>
      rw [hlist] at hmp
      simp only [List.nil_append]
      simp only [setterInsert]
      rw [if_pos hmp]
  | cons c a2 ih =>
    intro w b hpipe hw hlast
    have hcp : ¬ c = '|' := fun h => hpipe (by simp [h])
    have hmp : matchesPipeAt (c :: (a2 ++ (w ++ '|' :: b))) = false := by
      cases hb : matchesPipeAt (c :: (a2 ++ (w ++ '|' :: b))) with
      | false => rfl
      | true =>
        exfalso
        obtain ⟨w2, t2, heq, hw2⟩ := (matchesPipeAt_eq_true _).mp hb
        have hnp : '|' ∉ (c :: a2) ++ w := by
          intro hmem
          rcases List.mem_append.mp hmem with h1 | h2
          · exact hpipe h1
          · have := hw '|' h2
            simp [jsSpace] at this
        have hnp2 : '|' ∉ w2 := by
          intro hmem
          have := hw2 '|' hmem
          simp [jsSpace] at this
        have heq2 : ((c :: a2) ++ w) ++ '|' :: b = w2 ++ '|' :: t2 := by
          simpa using heq
        obtain ⟨hpref, -⟩ := append_pipe_inj '|' ((c :: a2) ++ w) w2 b t2 hnp hnp2 heq2
        have hne : (c :: a2) ≠ [] := by simp
        have hmem : (c :: a2).getLast hne ∈ w2 := by
          rw [← hpref]
          exact List.mem_append_left _ (List.getLast_mem hne)
        have h1 := hw2 _ hmem
        have h2 := hlast _ (by rw [List.getLast?_eq_getLast _ hne])
        rw [h1] at h2
        exact Bool.noConfusion h2
    have hlast2 : ∀ c0, a2.getLast? = some c0 → jsSpace c0 = false := by
      intro c0 hc0
      apply hlast c0
      cases a2 with
      | nil => simp at hc0
      | cons d t => simpa [List.getLast?_cons_cons] using hc0
    show setterInsert ins (c :: (a2 ++ (w ++ '|' :: b))) = _
    simp only [setterInsert]
    rw [if_neg (by simp [hmp])]
    rw [ih w b (fun hm => hpipe (by simp [hm])) hw hlast2]
    rfl

/-- Claim C4: parseSetter is sugar over the getter pipeline: it delegates to
parse on the expression rewritten into an assignment against the placeholder
(the '!' shorthand slicing the bang and negating the placeholder), with the
placeholder prepended to the extra-argument list, and does nothing else; the
rewrite inserts the assignment immediately before the first pipe segment
(any whitespace run directly preceding the first pipe stays with the pipe),
or at the end when no pipe is present. -/
theorem parseSetter_is_sugar :
    (∀ (pf : List Char → List Char)
       (pc : List Char → List (List Char × Val) → List Char)
       (jc : List (List Char) → List Char → Option Callable)
       (st : ModState) (e : List Char) (globals formatters : Val)
       (extraArgs : List (List Char)),
       st.valueProperty = "_value_".toList →
       parseSetter pf pc jc st e globals formatters extraArgs =
         parse pf pc jc st
           (.str (if e.head? = some '!' then setterInsert " = !_value_".toList e.tail
                  else setterInsert " = _value_".toList e))
           globals formatters ("_value_".toList :: extraArgs)) ∧
    (∀ (ins e : List Char), '|' ∉ e → setterInsert ins e = e ++ ins) ∧
    (∀ (ins a w b : List Char), '|' ∉ a → (∀ c ∈ w, jsSpace c = true) →
       (∀ c, a.getLast? = some c → jsSpace c = false) →
       setterInsert ins (a ++ (w ++ '|' :: b)) = a ++ (ins ++ (w ++ '|' :: b))) := by
  refine ⟨?_, setterInsert_no_pipe, setterInsert_at_pipe⟩
  intro pf pc jc st e globals formatters extraArgs hv
  unfold parseSetter
  rw [hv]

/-- Witness for C4 at concrete inputs: delegation on the fresh state, the
no-pipe insertion at the end, and the insertion before a pipe segment. -/
theorem parseSetter_is_sugar_witness :
    (parseSetter (fun s => s) (fun s _ => s) (fun _ _ => some (fun _ _ => Val.undefined))
        initialState "foo".toList Val.null Val.null [] =
      parse (fun s => s) (fun s _ => s) (fun _ _ => some (fun _ _ => Val.undefined))
        initialState (.str (setterInsert " = _value_".toList "foo".toList))
        Val.null Val.null ["_value_".toList]) ∧
    setterInsert " = _value_".toList "foo".toList = "foo = _value_".toList ∧
    setterInsert " = _value_".toList "a | b".toList = "a = _value_ | b".toList := by
  refine ⟨?_, ?_, ?_⟩
  · have h := parseSetter_is_sugar.1 (fun s => s) (fun s _ => s)
      (fun _ _ => some (fun _ _ => Val.undefined)) initialState "foo".toList
      Val.null Val.null [] rfl
    simpa using h
  · have h := parseSetter_is_sugar.2.1 " = _value_".toList "foo".toList (by decide)
    rw [h]
    rfl
  · have h := parseSetter_is_sugar.2.2 " = _value_".toList "a".toList [' '] " b".toList
      (by decide) (by decide) (by decide)
    simpa using h

/-! ### Cache behaviour and error paths (claims C3, C5, C7, C8, C9) -/

theorem parse_idempotent (pf : List Char → List Char)
    (pc : List Char → List (List Char × Val) → List Char)
    (jc : List (List Char) → List Char → Option Callable)
    (st : ModState) (e : List Char) (globals formatters : Val)
    (extraArgs : List (List Char)) (id : Nat) (f : Callable) (st2 : ModState)
    (h : parse pf pc jc st (.str e) globals formatters extraArgs = (.ok (id, f), st2)) :
    parse pf pc jc st2 (.str e) globals formatters extraArgs = (.ok (id, f), st2) := by
  simp only [parse] at h
  cases hl : lookupCache st.cache (cacheKey e extraArgs) with
  | some entry =>
    rw [hl] at h
    obtain ⟨h1, h2⟩ := Prod.mk.inj h
    subst h2
    have he : entry = (id, f) := Except.ok.inj h1
    simp only [parse]
    rw [hl, he]
  | none =>
    rw [hl] at h
    cases hs : st.strs with
    | some tbl =>
      rw [hs] at h
      exact absurd (Prod.mk.inj h).1 (by simp)
    | none =>
      rw [hs] at h
      cases hc : compileExpression jc
          (pipelineText pf pc st.globalsReg globals e extraArgs
            (decide (extraArgs.head? = some st.valueProperty)))
          globals formatters extraArgs with
      | none =>
        rw [hc] at h
        exact absurd (Prod.mk.inj h).1 (by simp)
      | some f2 =>
        rw [hc] at h
        obtain ⟨h1, h2⟩ := Prod.mk.inj h
        obtain ⟨hid, hf⟩ := Prod.mk.inj (Except.ok.inj h1)
        subst h2
        simp only [parse, lookupCache, if_pos rfl]
        simp [← hid, ← hf]

theorem append_last_inj (s : Char) (p q u v : List Char) (hu : s ∉ u) (hv2 : s ∉ v)
    (h : p ++ s :: u = q ++ s :: v) : p = q ∧ u = v := by
  have hrev : u.reverse ++ s :: p.reverse = v.reverse ++ s :: q.reverse := by
    have := congrArg List.reverse h
    simpa [List.reverse_append] using this
  obtain ⟨h1, h2⟩ := append_pipe_inj s u.reverse v.reverse p.reverse q.reverse
    (by simpa using hu) (by simpa using hv2) hrev
  constructor
  · have := congrArg List.reverse h2
    simpa using this
  · have := congrArg List.reverse h1
    simpa using this

theorem mem_joinComma {c : Char} : ∀ (as : List (List Char)), c ∈ joinComma as →
    c = ',' ∨ ∃ a ∈ as, c ∈ a := by
  intro as
  induction as with
  | nil => intro h; simp [joinComma] at h
  | cons a rest ih =>
    intro h
    cases rest with
    | nil =>
      simp only [joinComma] at h
      exact Or.inr ⟨a, by simp, h⟩
    | cons b bs =>
      rw [show joinComma (a :: b :: bs) = a ++ ',' :: joinComma (b :: bs) from rfl] at h
      rcases List.mem_append.mp h with h1 | h2
      · exact Or.inr ⟨a, by simp, h1⟩
      · rcases List.mem_cons.mp h2 with h3 | h4
        · exact Or.inl h3
        · rcases ih h4 with h5 | ⟨x, hx1, hx2⟩
          · exact Or.inl h5
          · exact Or.inr ⟨x, by simp [hx1], hx2⟩

theorem joinComma_inj : ∀ (a1 a2 : List (List Char)),
    (∀ a ∈ a1, a ≠ [] ∧ ',' ∉ a) → (∀ a ∈ a2, a ≠ [] ∧ ',' ∉ a) →
    joinComma a1 = joinComma a2 → a1 = a2 := by
  intro a1
  induction a1 with
  | nil =>
    intro a2 _ h2 h
    cases a2 with
    | nil => rfl
    | cons b bs =>
      exfalso
      cases bs with
      | nil => exact (h2 b (by simp)).1 h.symm
      | cons b2 bs2 =>
        rw [show joinComma (b :: b2 :: bs2) = b ++ ',' :: joinComma (b2 :: bs2) from rfl] at h
        exact absurd h.symm (by simp [joinComma])
  | cons a rest ih =>
    intro a2 h1 h2 h
    cases a2 with
    | nil =>
      exfalso
      cases rest with
      | nil => exact (h1 a (by simp)).1 h
      | cons r rs =>
        rw [show joinComma (a :: r :: rs) = a ++ ',' :: joinComma (r :: rs) from rfl] at h
        exact absurd h (by simp [joinComma])
    | cons b bs =>
      cases rest with
      | nil =>
        cases bs with
        | nil => rw [show a = b from h]
        | cons b2 bs2 =>
          exfalso
          rw [show joinComma (b :: b2 :: bs2) = b ++ ',' :: joinComma (b2 :: bs2) from rfl] at h
          have : ',' ∈ a := by rw [show (a : List Char) = b ++ ',' :: joinComma (b2 :: bs2) from h]; simp
          exact (h1 a (by simp)).2 this
      | cons r rs =>
        cases bs with
        | nil =>
          exfalso
          rw [show joinComma (a :: r :: rs) = a ++ ',' :: joinComma (r :: rs) from rfl] at h
          have hb : a ++ ',' :: joinComma (r :: rs) = b := h
          have : ',' ∈ b := by rw [← hb]; simp
          exact (h2 b (by simp)).2 this
        | cons b2 bs2 =>
          rw [show joinComma (a :: r :: rs) = a ++ ',' :: joinComma (r :: rs) from rfl,
              show joinComma (b :: b2 :: bs2) = b ++ ',' :: joinComma (b2 :: bs2) from rfl] at h
          obtain ⟨e1, e2⟩ := append_pipe_inj ',' a b (joinComma (r :: rs)) (joinComma (b2 :: bs2))
            (h1 a (by simp)).2 (h2 b (by simp)).2 h
          have e3 := ih (b2 :: bs2) (fun x hx => h1 x (by simp [hx]))
            (fun x hx => h2 x (by simp [hx])) e2
          rw [e1, e3]

theorem cacheKey_inj (e1 e2 : List Char) (a1 a2 : List (List Char))
    (h1 : ∀ a ∈ a1, a ≠ [] ∧ '|' ∉ a ∧ ',' ∉ a)
    (h2 : ∀ a ∈ a2, a ≠ [] ∧ '|' ∉ a ∧ ',' ∉ a)
    (h : cacheKey e1 a1 = cacheKey e2 a2) : e1 = e2 ∧ a1 = a2 := by
  have hp1 : '|' ∉ joinComma a1 := by
    intro hm
    rcases mem_joinComma a1 hm with hc | ⟨x, hx1, hx2⟩
    · exact absurd hc (by decide)
    · exact (h1 x hx1).2.1 hx2
  have hp2 : '|' ∉ joinComma a2 := by
    intro hm
    rcases mem_joinComma a2 hm with hc | ⟨x, hx1, hx2⟩
    · exact absurd hc (by decide)
    · exact (h2 x hx1).2.1 hx2
  obtain ⟨he, hj⟩ := append_last_inj '|' e1 e2 (joinComma a1) (joinComma a2) hp1 hp2 h
  exact ⟨he, joinComma_inj a1 a2 (fun a ha => ⟨(h1 a ha).1, (h1 a ha).2.2⟩)
    (fun a ha => ⟨(h2 a ha).1, (h2 a ha).2.2⟩) hj⟩

/-- Counterexample for claim C3 as stated: the cache key is not injective.
The distinct pairs (expression a|b, extra argument c) and (expression a,
extra argument b|c) build the same key, and a parse call for the second
pair returns the callable cached for the first. -/
theorem cacheKey_collision_example :
    cacheKey "a|b".toList ["c".toList] = cacheKey "a".toList ["b|c".toList] ∧
    ¬("a|b".toList = "a".toList ∧ ["c".toList] = ["b|c".toList]) ∧
    (parse (fun s => s) (fun s _ => s) (fun _ _ => some (fun _ _ => Val.undefined))
        { initialState with
            cache := [(cacheKey "a|b".toList ["c".toList], 0, fun _ _ => Val.undefined)]
            nextId := 1 }
        (.str "a".toList) Val.null Val.null ["b|c".toList]).1 =
      .ok (0, fun _ _ => Val.undefined) := by
  refine ⟨by decide, by decide, ?_⟩
  rfl

/-- Claim C3 (amended): a repeated parse call with identical expression text
and extra-argument list returns the identical cached entry and leaves the
state unchanged; and the cache key is injective provided every
extra-argument name is nonempty and free of pipe and comma characters
(without that proviso distinct pairs can collide). -/
theorem parse_memoization_and_key_injective :
    (∀ (pf : List Char → List Char)
       (pc : List Char → List (List Char × Val) → List Char)
       (jc : List (List Char) → List Char → Option Callable)
       (st : ModState) (e : List Char) (globals formatters : Val)
       (extraArgs : List (List Char)) (id : Nat) (f : Callable) (st2 : ModState),
       parse pf pc jc st (.str e) globals formatters extraArgs = (.ok (id, f), st2) →
       parse pf pc jc st2 (.str e) globals formatters extraArgs = (.ok (id, f), st2)) ∧
    (∀ (e1 e2 : List Char) (a1 a2 : List (List Char)),
       (∀ a ∈ a1, a ≠ [] ∧ '|' ∉ a ∧ ',' ∉ a) →
       (∀ a ∈ a2, a ≠ [] ∧ '|' ∉ a ∧ ',' ∉ a) →
       cacheKey e1 a1 = cacheKey e2 a2 → e1 = e2 ∧ a1 = a2) :=
  ⟨parse_idempotent, cacheKey_inj⟩

/-- Witness for C3 (amended) at concrete inputs: a fresh compile followed by
an identical call hits the cache with the same id and callable, and key
injectivity applied at a concrete clean key. -/
theorem parse_memoization_and_key_injective_witness :
    (parse (fun s => s) (fun s _ => s) (fun _ _ => some (fun _ _ => Val.undefined))
        { strs := none
          cache := [(cacheKey "a".toList [], 0,
            bindArguments (fun _ _ => Val.undefined) [Val.null, Val.null])]
          nextId := 1, valueProperty := "_value_".toList, globalsReg := [] }
        (.str "a".toList) Val.null Val.null [] =
      (.ok (0, bindArguments (fun _ _ => Val.undefined) [Val.null, Val.null]),
       { strs := none
         cache := [(cacheKey "a".toList [], 0,
           bindArguments (fun _ _ => Val.undefined) [Val.null, Val.null])]
         nextId := 1, valueProperty := "_value_".toList, globalsReg := [] })) ∧
    ("x".toList = "x".toList ∧ ["y".toList] = ["y".toList]) := by
  constructor
  · exact parse_memoization_and_key_injective.1 (fun s => s) (fun s _ => s)
      (fun _ _ => some (fun _ _ => Val.undefined)) initialState "a".toList Val.null Val.null []
      0 (bindArguments (fun _ _ => Val.undefined) [Val.null, Val.null]) _ rfl
  · exact parse_memoization_and_key_injective.2 "x".toList "x".toList
      ["y".toList] ["y".toList] (by decide) (by decide) rfl

/-- Claim C7: parse on a non-string expression argument throws a TypeError
before the cache is consulted or any transformation happens: the result is
the type error and the module state is returned unchanged. -/
theorem parse_nonstring_type_error (pf : List Char → List Char)
    (pc : List Char → List (List Char × Val) → List Char)
    (jc : List (List Char) → List Char → Option Callable)
    (st : ModState) (v : Val) (globals formatters : Val)
    (extraArgs : List (List Char)) :
    parse pf pc jc st (.nonString v) globals formatters extraArgs =
      (.error .typeError, st) := rfl

theorem parse_valueProperty (pf : List Char → List Char)
    (pc : List Char → List (List Char × Val) → List Char)
    (jc : List (List Char) → List Char → Option Callable)
    (st : ModState) (x : JSArg) (globals formatters : Val)
    (extraArgs : List (List Char)) :
    ((parse pf pc jc st x globals formatters extraArgs).2).valueProperty =
      st.valueProperty := by
  cases x with
  | nonString v => rfl
  | str e =>
    simp only [parse]
    split
    · rfl
    · split
      · rfl
      · split
        · rfl
        · rfl

/-- Claim C8: in the current revision the module-level placeholder name is
invariant across parse and parseSetter; in the older appended revision a
'!'-prefixed setter permanently mutates it to !_value_, so the claim fails
on that code. -/
theorem valueProperty_invariant_and_mutation :
    (∀ (pf : List Char → List Char)
       (pc : List Char → List (List Char × Val) → List Char)
       (jc : List (List Char) → List Char → Option Callable)
       (st : ModState) (x : JSArg) (globals formatters : Val)
       (extraArgs : List (List Char)),
       ((parse pf pc jc st x globals formatters extraArgs).2).valueProperty =
         st.valueProperty) ∧
    (∀ (pf : List Char → List Char)
       (pc : List Char → List (List Char × Val) → List Char)
       (jc : List (List Char) → List Char → Option Callable)
       (st : ModState) (e : List Char) (globals formatters : Val)
       (extraArgs : List (List Char)),
       ((parseSetter pf pc jc st e globals formatters extraArgs).2).valueProperty =
         st.valueProperty) ∧
    ((parseSetterV0 (fun s => s) (fun s _ => s) (fun _ _ => some (fun _ _ => Val.undefined))
        initialState "!foo".toList Val.null Val.null none).2).valueProperty =
      "!_value_".toList ∧
    initialState.valueProperty = "_value_".toList ∧
    "!_value_".toList ≠ "_value_".toList := by
  refine ⟨parse_valueProperty, ?_, by decide, rfl, by decide⟩
  intro pf pc jc st e globals formatters extraArgs
  unfold parseSetter
  exact parse_valueProperty pf pc jc st _ globals formatters _

/-- Claim C9: when the function constructor rejects the transformed body,
parse surfaces a compile error and returns the state with the cache exactly
as before, and an immediate retry of the same call recompiles (and fails the
same way) instead of finding a cached entry. -/
theorem compile_failure_leaves_cache (pf : List Char → List Char)
    (pc : List Char → List (List Char × Val) → List Char)
    (jc : List (List Char) → List Char → Option Callable)
    (st : ModState) (e : List Char) (globals formatters : Val)
    (extraArgs : List (List Char))
    (h1 : lookupCache st.cache (cacheKey e extraArgs) = none)
    (h2 : st.strs = none)
    (h3 : jc (globalsParamName :: formattersParamName :: extraArgs)
        (pipelineText pf pc st.globalsReg globals e extraArgs
          (decide (extraArgs.head? = some st.valueProperty))) = none) :
    parse pf pc jc st (.str e) globals formatters extraArgs =
      (.error .compileError, st) ∧
    parse pf pc jc
        ((parse pf pc jc st (.str e) globals formatters extraArgs).2)
        (.str e) globals formatters extraArgs =
      (.error .compileError, st) := by
  have hst : ({ st with strs := none } : ModState) = st := by
    cases st
    simp_all
  have hmain : parse pf pc jc st (.str e) globals formatters extraArgs =
      (.error .compileError, st) := by
    simp only [parse]
    rw [h1, h2]
    rw [show compileExpression jc
        (pipelineText pf pc st.globalsReg globals e extraArgs
          (decide (extraArgs.head? = some st.valueProperty)))
        globals formatters extraArgs = none from by
      simp [compileExpression, h3]]
    rw [hst]
  refine ⟨hmain, ?_⟩
  rw [hmain]
  exact hmain

/-- Witness for C9 at concrete inputs with a constructor that always
rejects: the error surfaces and the initial state is unchanged, also on an
immediate retry. -/
theorem compile_failure_leaves_cache_witness :
    parse (fun s => s) (fun s _ => s) (fun _ _ => none) initialState (.str "x".toList)
        Val.null Val.null [] = (.error .compileError, initialState) ∧
    parse (fun s => s) (fun s _ => s) (fun _ _ => none)
        ((parse (fun s => s) (fun s _ => s) (fun _ _ => none) initialState
          (.str "x".toList) Val.null Val.null []).2)
        (.str "x".toList) Val.null Val.null [] =
      (.error .compileError, initialState) :=
  compile_failure_leaves_cache (fun s => s) (fun s _ => s) (fun _ _ => none)
    initialState "x".toList Val.null Val.null [] rfl rfl rfl

/-- Claim C5: on a successful fresh compile the returned callable is the
partial application of the raw compiled function to the captured globals and
formatters: invoked with any binding context and positional arguments, it
calls the raw function with the call-time context and with globals and
formatters prepended before the arguments. -/
theorem parse_callable_binds_context (pf : List Char → List Char)
    (pc : List Char → List (List Char × Val) → List Char)
    (jc : List (List Char) → List Char → Option Callable)
    (st : ModState) (e : List Char) (globals formatters : Val)
    (extraArgs : List (List Char)) (raw : Callable)
    (h1 : lookupCache st.cache (cacheKey e extraArgs) = none)
    (h2 : st.strs = none)
    (h3 : jc (globalsParamName :: formattersParamName :: extraArgs)
        (pipelineText pf pc st.globalsReg globals e extraArgs
          (decide (extraArgs.head? = some st.valueProperty))) = some raw) :
    (parse pf pc jc st (.str e) globals formatters extraArgs).1 =
      .ok (st.nextId, bindArguments raw [globals, formatters]) ∧
    (∀ (ctx : Val) (xs : List Val),
      bindArguments raw [globals, formatters] ctx xs =
        raw ctx (globals :: formatters :: xs)) := by
  constructor
  · simp only [parse]
    rw [h1, h2]
    rw [show compileExpression jc
        (pipelineText pf pc st.globalsReg globals e extraArgs
          (decide (extraArgs.head? = some st.valueProperty)))
        globals formatters extraArgs =
        some (bindArguments raw [globals, formatters]) from by
      simp [compileExpression, h3]]
  · intro ctx xs
    rfl

/-- Witness for C5 at concrete inputs: a fresh compile on the initial state
returns the bound callable, which forwards context and prepends the captured
globals and formatters. -/
theorem parse_callable_binds_context_witness :
    ((parse (fun s => s) (fun s _ => s) (fun _ _ => some (fun _ _ => Val.obj []))
        initialState (.str "foo".toList) Val.null Val.null []).1 =
      .ok (0, bindArguments (fun _ _ => Val.obj []) [Val.null, Val.null])) ∧
    (∀ (ctx : Val) (xs : List Val),
      bindArguments (fun _ _ => Val.obj []) [Val.null, Val.null] ctx xs =
        (fun (_ : Val) (_ : List Val) => Val.obj []) ctx (Val.null :: Val.null :: xs)) :=
  parse_callable_binds_context (fun s => s) (fun s _ => s)
    (fun _ _ => some (fun _ _ => Val.obj [])) initialState "foo".toList
    Val.null Val.null [] (fun _ _ => Val.obj []) rfl rfl rfl

end ExpressionsJs
